import Mathlib

/-
Verification of the FSQ (finite scalar quantizer) core from `fsq/fsq.ipynb`.

Modelling conventions for the shallow embedding:
* numpy float64 arithmetic is modelled exactly: by `ℚ` where the source only
  performs field operations on rational values (all of the index codec), and
  by `ℝ` where `tanh`/`tan` appear (the bounding transform).
* IEEE NaN is modelled by `none` (in `Option ℚ` / `Option ℝ`).  In this
  program a NaN is created exactly by a division whose denominator is `0`,
  which happens exactly in dimensions whose level count is `1`
  (`half_l = 0` and `half_width = L // 2 = 0`); in every such division the
  numerator is also `0` (or already NaN), so numpy produces NaN, never ±∞.
  Arithmetic on `none` propagates `none`, as NaN does.
* `astype(np.uint32)` of an integer value is reduction `% 2 ^ 32` (numpy
  keeps the low 32 bits).  `astype(jnp.uint32)` of a float value truncates
  toward zero for in-range non-negative values; casting NaN (or an
  out-of-range value) to an integer type is not specified by numpy, so the
  cast of a `none` value is modelled as `none`.
* `np.prod` over the level counts is int64 arithmetic and silently wraps:
  it is modelled faithfully by `codebook_size_int64` (the exact product mod
  `2 ^ 64`, reinterpreted as a signed value), which the constructor's
  `np.arange` consumes.  The unbounded product `codebook_size` is used in
  statements whose hypotheses keep it below the wrap, where the two agree.
* numpy integer division by zero emits a warning and returns `0`, which
  agrees with Lean's `Nat` convention `i / 0 = 0`.  (`x % 0` would disagree,
  but a modulus of `0` would require a level equal to `0` in a position
  that no claim exercises with a nonzero dividend.)
* `list[int]` level counts are modelled as `List ℕ`; the levels appearing in
  the spec and the notebook are all non-negative.
-/

namespace FSQ

/-- numpy float division on exact rationals, with NaN as `none`.  numpy
yields NaN for `0/0` and ±∞ for `x/0` with `x ≠ 0`; in this program every
division by zero has a zero (or NaN) numerator, so ±∞ never arises and a
zero denominator is uniformly mapped to `none`. -/
def npdiv (a b : ℚ) : Option ℚ := if b = 0 then none else some (a / b)

/-- NaN-propagating addition, as in a numpy `sum` containing NaN. -/
def optAdd (a b : Option ℚ) : Option ℚ :=
  match a, b with
  | some x, some y => some (x + y)
  | _, _ => none

/-- `.sum(axis=-1)` over one vector, propagating NaN. -/
def optSum (xs : List (Option ℚ)) : Option ℚ := xs.foldr optAdd (some 0)

/-- Running products with a start accumulator (helper for `np.cumprod`). -/
def cumprodFrom (acc : ℕ) : List ℕ → List ℕ
  | [] => []
  | x :: xs => (acc * x) :: cumprodFrom (acc * x) xs

/-- `np.cumprod`. -/
def cumprod (xs : List ℕ) : List ℕ := cumprodFrom 1 xs

/-- `self._basis = np.concatenate(([1], np.cumprod(self._levels_np[:-1]))).astype(np.uint32)`.
The `astype` keeps the low 32 bits of each (possibly int64-wrapped) entry,
i.e. reduces it `% 2 ^ 32`. -/
def basisU (levels : List ℕ) : List ℕ :=
  (1 :: cumprod levels.dropLast).map (fun x => x % 2 ^ 32)

/-- The same mixed-radix basis without the `uint32` cast (for reasoning). -/
def basisRaw (levels : List ℕ) : List ℕ := 1 :: cumprod levels.dropLast

/-- The mathematical codebook size, `prod(levels)` (`np.prod([]) = 1`).
The runtime `codebook_size` property computes this product in int64
arithmetic, which silently wraps (`codebook_size_int64` below); the two
agree exactly when the product stays below `2 ^ 63`, which the size
hypotheses of the index-codec theorems (`≤ 2 ^ 32`) guarantee. -/
def codebook_size (levels : List ℕ) : ℕ := levels.prod

/-- `np.prod(self._levels)` as the source actually computes it: sequential
int64 multiplication.  Each step wraps mod `2 ^ 64`, so the result is the
exact product reduced mod `2 ^ 64` and reinterpreted as a signed 64-bit
value in `[-2^63, 2^63)` — e.g. `[2^32, 2^32] ↦ 0` and `[2^62, 3] ↦` a
negative value.  (Level entries themselves are assumed int64-representable:
modern numpy rejects larger entries in `np.asarray` before any product is
taken.)  Marked irreducible so that generic goals do not unfold the stuck
modular arithmetic; concrete instances are computed via `unfold`. -/
@[irreducible] def codebook_size_int64 (levels : List ℕ) : ℤ :=
  ((levels.prod : ℤ) + 2 ^ 63) % 2 ^ 64 - 2 ^ 63

/-- `num_dimensions` property: `len(self._levels)`. -/
def num_dimensions (levels : List ℕ) : ℕ := levels.length

/-- One component of `_scale_and_shift`:
`(zhat_normalized * half_width) + half_width` with `half_width = L // 2`. -/
def scale_and_shift (l : ℕ) (c : Option ℚ) : Option ℚ :=
  c.map (fun q => q * ((l / 2 : ℕ) : ℚ) + ((l / 2 : ℕ) : ℚ))

/-- One component of `_scale_and_shift_inverse`:
`(zhat - half_width) / half_width` with `half_width = L // 2` (float
division, NaN for `0/0` when `L = 1`). -/
def scale_and_shift_inverse (l : ℕ) (zhat : ℚ) : Option ℚ :=
  npdiv (zhat - ((l / 2 : ℕ) : ℚ)) ((l / 2 : ℕ) : ℚ)

/-- `astype(jnp.uint32)` of a non-negative in-range float value: truncation
toward zero (for such values, the floor), then the low 32 bits.  (Negative
or huge inputs are platform-dependent in numpy and are not exercised by any
claim.) -/
def astypeUint32 (q : ℚ) : ℕ := (⌊q⌋).toNat % 2 ^ 32

/-- The numeric body of `codes_to_indexes` with the basis abstracted:
`(self._scale_and_shift(zhat) * basis).sum(axis=-1)`. -/
def encValWith (basis levels : List ℕ) (zhat : List (Option ℚ)) : Option ℚ :=
  optSum ((((zhat.zip levels).map (fun p => scale_and_shift p.2 p.1)).zip basis).map
    (fun p => p.1.map (fun q => q * (p.2 : ℚ))))

/-- `codes_to_indexes`: assert the last-axis length, scale and shift, multiply
by the `uint32` basis, sum, cast to `uint32`.  `Except.error ()` models the
`AssertionError` of the leading `assert zhat.shape[-1] == self.num_dimensions`;
the inner `none` models the unspecified result of casting a NaN sum. -/
def codes_to_indexes (levels : List ℕ) (zhat : List (Option ℚ)) : Except Unit (Option ℕ) :=
  if zhat.length = levels.length then
    Except.ok ((encValWith (basisU levels) levels zhat).map astypeUint32)
  else Except.error ()

/-- `indexes_to_codes` for one index: digit extraction
`np.mod(np.floor_divide(indices, self._basis), self._levels_np)` followed by
`_scale_and_shift_inverse`.  No range check is performed on the index. -/
def indexes_to_codes (levels : List ℕ) (i : ℕ) : List (Option ℚ) :=
  ((basisU levels).zip levels).map
    (fun p => scale_and_shift_inverse p.2 (((i / p.1) % p.2 : ℕ) : ℚ))

/-- Recursive formulation of the digit extraction with the exact (uncast)
basis; used to reason about `indexes_to_codes` by induction. -/
def codesAux (levels : List ℕ) (i : ℕ) : List (Option ℚ) :=
  match levels with
  | [] => []
  | l :: ls => scale_and_shift_inverse l ((i % l : ℕ) : ℚ) :: codesAux ls (i / l)

/-- The state assembled by `FSQ.__init__`: the configuration together with
the derived `uint32` basis and the eagerly materialized implicit codebook. -/
structure Data where
  levels : List ℕ
  eps : ℝ
  basis : List ℕ
  implicit_codebook : List (List (Option ℚ))

/-- `FSQ.__init__(levels, eps)`: stores the configuration, derives the basis
and decodes `np.arange(self.codebook_size)` into the implicit codebook.  The
constructor performs no validation of `levels`.  `np.arange` ranges over the
int64-wrapped product the `codebook_size` property returns: it is empty when
that value is zero or negative (overflowing configurations), hence the
`Int.toNat`. -/
noncomputable def init (levels : List ℕ) (eps : ℝ) : Data :=
  { levels := levels
    eps := eps
    basis := basisU levels
    implicit_codebook :=
      (List.range (codebook_size_int64 levels).toNat).map (indexes_to_codes levels) }

/-- numpy float division on reals, with NaN as `none` (same conventions as
`npdiv`). -/
noncomputable def nprdiv (a b : ℝ) : Option ℝ := if b = 0 then none else some (a / b)

/-- `half_l = (self._levels_np - 1) * (1 - self._eps) / 2`, one dimension. -/
noncomputable def half_l (l : ℕ) (eps : ℝ) : ℝ := ((l : ℝ) - 1) * (1 - eps) / 2

/-- `offset = jnp.where(self._levels_np % 2 == 1, 0.0, 0.5)`, one dimension. -/
noncomputable def offset (l : ℕ) : ℝ := if l % 2 = 1 then 0 else 0.5

/-- `shift = jnp.tan(offset / half_l)`, one dimension.  For `l = 1` the
quotient is `0 / 0`, i.e. NaN, and `tan(NaN) = NaN`. -/
noncomputable def shift (l : ℕ) (eps : ℝ) : Option ℝ :=
  (nprdiv (offset l) (half_l l eps)).map Real.tan

/-- One dimension of `bound`: `jnp.tanh(z + shift) * half_l - offset`. -/
noncomputable def bound (l : ℕ) (eps z : ℝ) : Option ℝ :=
  (shift l eps).map (fun s => Real.tanh (z + s) * half_l l eps - offset l)

/-- `jnp.round`: round to the nearest integer, ties to even. -/
noncomputable def roundHalfEven (x : ℝ) : ℤ :=
  if x - ⌊x⌋ < 1 / 2 then ⌊x⌋
  else if 1 / 2 < x - ⌊x⌋ then ⌊x⌋ + 1
  else if Even ⌊x⌋ then ⌊x⌋ else ⌊x⌋ + 1

/-- `round_ste`: the forward value is exactly the rounded value
(`z + stop_gradient(round(z) - z) = round(z)`); the straight-through
gradient is an automatic-differentiation artifact with no effect on values. -/
noncomputable def round_ste (z : ℝ) : ℝ := (roundHalfEven z : ℝ)

/-- One dimension of `quantize`: `round_ste(self.bound(z)) / half_width` with
`half_width = L // 2`.  The rounded value is the integer `roundHalfEven`, so
the final division is exact rational arithmetic; a NaN `bound` (level 1)
propagates, and `half_width = 0` (also level 1) gives NaN. -/
noncomputable def quantizeDim (l : ℕ) (eps z : ℝ) : Option ℚ :=
  (bound l eps z).bind (fun b => npdiv ((roundHalfEven b : ℤ) : ℚ) ((l / 2 : ℕ) : ℚ))

/-- `quantize` on one vector of the last axis.  There is no dimension check:
numpy broadcasting applies the per-dimension constants along the last axis,
so a vector of matching length is processed elementwise, a length-1 vector
(or a single-dimension configuration) is silently broadcast, and any other
mismatch raises a broadcasting error during the arithmetic (`none`). -/
noncomputable def quantize (levels : List ℕ) (eps : ℝ) (z : List ℝ) : Option (List (Option ℚ)) :=
  if z.length = levels.length then
    some ((levels.zip z).map (fun p => quantizeDim p.1 eps p.2))
  else
    match z, levels with
    | [z0], _ => some (levels.map (fun l => quantizeDim l eps z0))
    | _, [l0] => some (z.map (fun zi => quantizeDim l0 eps zi))
    | _, _ => none

theorem cumprodFrom_mul (a b : ℕ) (xs : List ℕ) :
    cumprodFrom (a * b) xs = (cumprodFrom b xs).map (fun y => a * y) := by
  induction xs generalizing b with
  | nil => rfl
  | cons x xs ih =>
    simp only [cumprodFrom, List.map_cons, Nat.mul_assoc, ih (b * x)]

theorem cumprod_cons (x : ℕ) (xs : List ℕ) :
    cumprod (x :: xs) = x :: (cumprod xs).map (fun y => x * y) := by
  simp only [cumprod, cumprodFrom, Nat.one_mul]
  rw [show cumprodFrom x xs = cumprodFrom (x * 1) xs from by rw [Nat.mul_one],
    cumprodFrom_mul x 1 xs]

theorem length_cumprodFrom (a : ℕ) (xs : List ℕ) :
    (cumprodFrom a xs).length = xs.length := by
  induction xs generalizing a with
  | nil => rfl
  | cons x xs ih => simp [cumprodFrom, ih]

theorem length_basisRaw (levels : List ℕ) (h : levels ≠ []) :
    (basisRaw levels).length = levels.length := by
  cases levels with
  | nil => exact absurd rfl h
  | cons l ls =>
    simp [basisRaw, cumprod, length_cumprodFrom]

theorem basisRaw_cons (l : ℕ) (ls : List ℕ) (h : ls ≠ []) :
    basisRaw (l :: ls) = 1 :: (basisRaw ls).map (fun y => l * y) := by
  cases ls with
  | nil => exact absurd rfl h
  | cons l' ls' =>
    simp only [basisRaw, List.dropLast_cons₂, cumprod_cons, List.map_cons, Nat.mul_one]

theorem mem_cumprod_dvd {b : ℕ} {xs : List ℕ} (h : b ∈ cumprod xs) : b ∣ xs.prod := by
  induction xs generalizing b with
  | nil => simp [cumprod, cumprodFrom] at h
  | cons x xs ih =>
    rw [cumprod_cons] at h
    rcases List.mem_cons.1 h with h1 | h1
    · exact h1 ▸ Dvd.intro _ rfl
    · rcases List.mem_map.1 h1 with ⟨y, hy, rfl⟩
      exact List.prod_cons (l := xs) (a := x) ▸ mul_dvd_mul_left x (ih hy)

theorem basisRaw_dvd {b : ℕ} {levels : List ℕ} (h : b ∈ basisRaw levels) :
    b ∣ levels.dropLast.prod := by
  rcases List.mem_cons.1 h with h1 | h1
  · exact h1 ▸ one_dvd _
  · exact mem_cumprod_dvd h1

theorem dropLast_prod_dvd (levels : List ℕ) : levels.dropLast.prod ∣ levels.prod := by
  by_cases hne : levels = []
  · subst hne
    simp
  · conv_rhs => rw [← List.dropLast_append_getLast hne]
    rw [List.prod_append]
    exact dvd_mul_right _ _

theorem basisRaw_lt_of_one {levels : List ℕ} (h1 : ∀ l ∈ levels, 1 ≤ l)
    (h2 : levels.prod < 2 ^ 32) : ∀ b ∈ basisRaw levels, b < 2 ^ 32 := by
  intro b hb
  have hpos : 0 < levels.prod := List.prod_pos (fun a ha => h1 a ha)
  have hd : b ∣ levels.prod := (basisRaw_dvd hb).trans (dropLast_prod_dvd levels)
  exact lt_of_le_of_lt (Nat.le_of_dvd hpos hd) h2

theorem basisU_eq_basisRaw {levels : List ℕ} (h : ∀ b ∈ basisRaw levels, b < 2 ^ 32) :
    basisU levels = basisRaw levels := by
  have : basisU levels = (basisRaw levels).map (fun x => x % 2 ^ 32) := rfl
  rw [this, List.map_congr_left (fun b hb => Nat.mod_eq_of_lt (h b hb)), List.map_id']

theorem decodeRaw_eq_codesAux (levels : List ℕ) (i : ℕ) :
    ((basisRaw levels).zip levels).map
      (fun p => scale_and_shift_inverse p.2 (((i / p.1) % p.2 : ℕ) : ℚ)) =
      codesAux levels i := by
  induction levels generalizing i with
  | nil => rfl
  | cons l ls ih =>
    cases hls : ls with
    | nil =>
      simp [basisRaw, cumprod, cumprodFrom, codesAux]
    | cons l' ls' =>
      have hne : ls ≠ [] := by simp [hls]
      rw [← hls, basisRaw_cons l ls hne]
      simp only [List.zip_cons_cons, List.map_cons, Nat.div_one, codesAux]
      refine congrArg₂ _ rfl ?_
      rw [List.zip_map_left, List.map_map]
      have hfun : ((fun p : ℕ × ℕ => scale_and_shift_inverse p.2 (((i / p.1) % p.2 : ℕ) : ℚ)) ∘
          Prod.map (fun y => l * y) id) =
            (fun p : ℕ × ℕ => scale_and_shift_inverse p.2 ((((i / l) / p.1) % p.2 : ℕ) : ℚ)) := by
        funext p
        simp only [Function.comp_apply, Prod.map_fst, Prod.map_snd, id_eq]
        rw [← Nat.div_div_eq_div_mul]
      rw [hfun]
      exact ih (i / l)

theorem indexes_to_codes_eq_codesAux {levels : List ℕ}
    (h : ∀ b ∈ basisRaw levels, b < 2 ^ 32) (i : ℕ) :
    indexes_to_codes levels i = codesAux levels i := by
  rw [indexes_to_codes, basisU_eq_basisRaw h, decodeRaw_eq_codesAux]

theorem length_indexes_to_codes (levels : List ℕ) (i : ℕ) :
    (indexes_to_codes levels i).length = levels.length := by
  cases levels with
  | nil => rfl
  | cons l ls =>
    simp [indexes_to_codes, basisU, cumprod, length_cumprodFrom]

theorem codesAux_mod (levels : List ℕ) (i : ℕ) :
    codesAux levels (i % levels.prod) = codesAux levels i := by
  induction levels generalizing i with
  | nil => rfl
  | cons l ls ih =>
    simp only [codesAux, List.prod_cons]
    refine congrArg₂ _ ?_ ?_
    · rw [Nat.mod_mod_of_dvd i (Dvd.intro _ rfl)]
    · rw [Nat.mod_mul_right_div_self, ih (i / l)]

/-- Claim C10, amended.  `indexes_to_codes` never fails and aliases indices
modulo `codebook_size`, provided the mixed-radix basis survives the `uint32`
cast, i.e. `codebook_size < 2 ^ 32` (for larger products the cast corrupts
the basis, see the counterexample): for every non-negative index `i`,
`indexes_to_codes i = indexes_to_codes (i % codebook_size)`. -/
theorem decode_periodic (levels : List ℕ) (i : ℕ) (h1 : ∀ l ∈ levels, 1 ≤ l)
    (hN : codebook_size levels < 2 ^ 32) :
    indexes_to_codes levels i = indexes_to_codes levels (i % codebook_size levels) := by
  have hwrap : ∀ b ∈ basisRaw levels, b < 2 ^ 32 := basisRaw_lt_of_one h1 hN
  rw [indexes_to_codes_eq_codesAux hwrap, indexes_to_codes_eq_codesAux hwrap]
  exact (codesAux_mod levels i).symm

/-- Claim C10, witness: aliasing at `levels = [3, 5, 4]` with the
out-of-range index `137` (`137 % 60 = 17`). -/
theorem decode_periodic_witness :
    (∀ l ∈ [3, 5, 4], 1 ≤ l) ∧ codebook_size [3, 5, 4] < 2 ^ 32 ∧
      indexes_to_codes [3, 5, 4] 137 =
        indexes_to_codes [3, 5, 4] (137 % codebook_size [3, 5, 4]) :=
  ⟨by decide, by decide, decode_periodic [3, 5, 4] 137 (by decide) (by decide)⟩

theorem codebook_size_int64_toNat_eq {levels : List ℕ} (h : levels.prod < 2 ^ 63) :
    (codebook_size_int64 levels).toNat = codebook_size levels := by
  unfold codebook_size_int64 codebook_size
  have h0 : (0 : ℤ) ≤ (levels.prod : ℤ) := Int.natCast_nonneg _
  have h1 : (levels.prod : ℤ) < 2 ^ 63 := by exact_mod_cast h
  have hpow : (2 : ℤ) ^ 63 + 2 ^ 63 = 2 ^ 64 := by norm_num
  rw [Int.emod_eq_of_lt (by linarith) (by linarith)]
  omega

theorem length_init_codebook (levels : List ℕ) (eps : ℝ) :
    (init levels eps).implicit_codebook.length = (codebook_size_int64 levels).toNat := by
  simp [init]

/-- Claim C9, amended.  Whenever the level product does not overflow int64
(`codebook_size < 2 ^ 63`), the implicit codebook materialized by the
constructor has exactly `codebook_size` entries, and its `k`-th entry is the
decoding of index `k`, for every `k` in `[0, codebook_size)`.  (For larger
products the int64 `np.prod` silently wraps and `np.arange` truncates the
enumeration, see the counterexample.) -/
theorem codebook_enumeration (levels : List ℕ) (eps : ℝ)
    (hov : codebook_size levels < 2 ^ 63) :
    (init levels eps).implicit_codebook.length = codebook_size levels ∧
      ∀ k, k < codebook_size levels →
        (init levels eps).implicit_codebook[k]? = some (indexes_to_codes levels k) := by
  have htn : (codebook_size_int64 levels).toNat = codebook_size levels :=
    codebook_size_int64_toNat_eq hov
  refine ⟨?_, ?_⟩
  · rw [length_init_codebook, htn]
  · intro k hk
    have hk' : k < (codebook_size_int64 levels).toNat := htn ▸ hk
    simp [init, List.getElem?_map, List.getElem?_range hk']

/-- Claim C9, witness: the codebook of the notebook's `FSQ(levels=[3, 4])`
example (product `12`, far below the int64 wrap), at entry `5`. -/
theorem codebook_enumeration_witness :
    codebook_size [3, 4] < 2 ^ 63 ∧ 5 < codebook_size [3, 4] ∧
      (init [3, 4] (1 / 1000)).implicit_codebook[5]? = some (indexes_to_codes [3, 4] 5) :=
  ⟨by decide, by decide,
    (codebook_enumeration [3, 4] (1 / 1000) (by decide)).2 5 (by decide)⟩

/-- Claim C9, counterexample.  At `levels = [2^32, 2^32]` the int64 product
wraps to `0`, `np.arange` of it is empty and the constructor's implicit
codebook has no entries at all, while `codebook_size = 2^64` is nonzero: the
enumeration does not have `codebook_size` entries (and has no `k`-th entry
to compare with `decode(k)`). -/
theorem codebook_empty_at_int64_overflow :
    (init [4294967296, 4294967296] (1 / 1000)).implicit_codebook.length = 0 ∧
      codebook_size [4294967296, 4294967296] ≠ 0 := by
  constructor
  · rw [length_init_codebook]
    unfold codebook_size_int64
    decide
  · decide

/-- Claim C6, amended.  Construction never fails and performs no validation:
for every `levels` list (empty, containing entries below `1`, or with an
int64-overflowing product alike) and every tolerance, `FSQ.__init__`
produces a complete instance.  Its implicit codebook has
`max(codebook_size_int64, 0)` rows — the int64-wrapped `np.prod`, which is
`codebook_size` whenever the product does not overflow, and e.g. `0` for
`levels = [2^32, 2^32]` — each row holding `num_dimensions` entries. -/
theorem init_never_fails (levels : List ℕ) (eps : ℝ) :
    (init levels eps).levels = levels ∧
      (init levels eps).implicit_codebook.length = (codebook_size_int64 levels).toNat ∧
      ∀ c ∈ (init levels eps).implicit_codebook, c.length = num_dimensions levels := by
  refine ⟨rfl, by simp [init], ?_⟩
  intro c hc
  simp only [init, List.mem_map] at hc
  rcases hc with ⟨k, _, rfl⟩
  exact length_indexes_to_codes levels k

/-- Claim C7, amended.  `indexes_to_codes` performs no range check and never
raises: for every configuration and every non-negative index, including
indices at or beyond `codebook_size`, it returns a full codeword of
`num_dimensions` components (out-of-range indices alias modulo
`codebook_size` when the basis is not corrupted by the `uint32` cast). -/
theorem decode_total (levels : List ℕ) (i : ℕ) :
    (indexes_to_codes levels i).length = num_dimensions levels :=
  length_indexes_to_codes levels i

theorem quantizeDim_one (eps z : ℝ) : quantizeDim 1 eps z = none := by
  simp [quantizeDim, bound, shift, nprdiv, half_l]

/-- Claim C5, amended.  `levels = [1]` does yield `codebook_size = 1` with
`0` the only index below it, but the single codeword is NaN, not `0`: both
decoding index `0` and quantizing any input hit the division `0 / 0`
(`half_width = 1 // 2 = 0`, and `shift = tan(0 / 0)` in the bound). -/
theorem level_one_codebook :
    codebook_size [1] = 1 ∧ indexes_to_codes [1] 0 = [none] ∧
      ∀ z : ℝ, quantize [1] (1 / 1000) [z] = some [none] := by
  refine ⟨by decide, ?_, ?_⟩
  · norm_num [indexes_to_codes, basisU, cumprod, cumprodFrom, scale_and_shift_inverse, npdiv]
  · intro z
    simp [quantize, quantizeDim_one]

theorem tanh_lt_one (x : ℝ) : Real.tanh x < 1 := by
  rw [Real.tanh_eq_sinh_div_cosh, div_lt_one (Real.cosh_pos x)]
  exact Real.sinh_lt_cosh x

theorem neg_one_lt_tanh (x : ℝ) : -1 < Real.tanh x := by
  rw [Real.tanh_eq_sinh_div_cosh, lt_div_iff₀ (Real.cosh_pos x)]
  have h1 := Real.cosh_add_sinh x
  have h2 := Real.exp_pos x
  linarith

theorem roundHalfEven_le (x : ℝ) : (roundHalfEven x : ℝ) ≤ x + 1 / 2 := by
  have hfl : (⌊x⌋ : ℝ) ≤ x := Int.floor_le x
  unfold roundHalfEven
  split_ifs with h1 h2 h3
  · linarith
  · push_cast
    linarith
  · linarith
  · have h1' := not_lt.1 h1
    push_cast
    linarith

theorem roundHalfEven_ge (x : ℝ) : x - 1 / 2 ≤ (roundHalfEven x : ℝ) := by
  have hfl : (⌊x⌋ : ℝ) ≤ x := Int.floor_le x
  have hfl2 : x < ⌊x⌋ + 1 := Int.lt_floor_add_one x
  unfold roundHalfEven
  split_ifs with h1 h2 h3
  · linarith
  · push_cast
    linarith
  · have h2' := not_lt.1 h2
    linarith
  · push_cast
    linarith

theorem scale_shift_inverse_mem {l : ℕ} (hl : 2 ≤ l) {d : ℕ} (hd : d < l) :
    ∃ q : ℚ, scale_and_shift_inverse l ((d : ℕ) : ℚ) = some q ∧ -1 ≤ q ∧ q ≤ 1 := by
  have hh0 : (l / 2 : ℕ) ≠ 0 := by omega
  have hh : (0 : ℚ) < ((l / 2 : ℕ) : ℚ) := by
    exact_mod_cast Nat.pos_of_ne_zero hh0
  refine ⟨((d : ℚ) - ((l / 2 : ℕ) : ℚ)) / ((l / 2 : ℕ) : ℚ), ?_, ?_, ?_⟩
  · simp [scale_and_shift_inverse, npdiv, ne_of_gt hh]
  · rw [le_div_iff₀ hh]
    have : (0 : ℚ) ≤ (d : ℚ) := Nat.cast_nonneg d
    linarith
  · rw [div_le_one hh]
    have hdl : d ≤ 2 * (l / 2) := by omega
    have : (d : ℚ) ≤ 2 * ((l / 2 : ℕ) : ℚ) := by exact_mod_cast hdl
    linarith

theorem quantizeDim_spec {l : ℕ} (hl : 2 ≤ l) {eps : ℝ} (he0 : 0 ≤ eps) (he1 : eps < 1)
    (z : ℝ) :
    ∃ d : ℕ, d < l ∧ quantizeDim l eps z = scale_and_shift_inverse l ((d : ℕ) : ℚ) := by
  have hl2 : (2 : ℝ) ≤ (l : ℝ) := by exact_mod_cast hl
  have hhalf : 0 < half_l l eps := by
    unfold half_l
    exact div_pos (mul_pos (by linarith) (by linarith)) two_pos
  have hhne : half_l l eps ≠ 0 := ne_of_gt hhalf
  have hbound : bound l eps z =
      some (Real.tanh (z + Real.tan (offset l / half_l l eps)) * half_l l eps - offset l) := by
    simp [bound, shift, nprdiv, hhne]
  set T := Real.tanh (z + Real.tan (offset l / half_l l eps)) with hT
  have hT1 : T < 1 := tanh_lt_one _
  have hT2 : -1 < T := neg_one_lt_tanh _
  set b := T * half_l l eps - offset l with hbdef
  have hbub : b < half_l l eps - offset l := by
    have := mul_lt_mul_of_pos_right hT1 hhalf
    rw [one_mul] at this
    rw [hbdef]
    linarith
  have hblb : -(half_l l eps) - offset l < b := by
    have := mul_lt_mul_of_pos_right hT2 hhalf
    rw [neg_one_mul] at this
    rw [hbdef]
    linarith
  set k := roundHalfEven b with hk
  have hk1 : (k : ℝ) ≤ b + 1 / 2 := roundHalfEven_le b
  have hk2 : b - 1 / 2 ≤ (k : ℝ) := roundHalfEven_ge b
  have hhub : half_l l eps ≤ ((l : ℝ) - 1) / 2 := by
    unfold half_l
    have h1 : (1 : ℝ) - eps ≤ 1 := by linarith
    have h0 : (0 : ℝ) ≤ (l : ℝ) - 1 := by linarith
    have := mul_le_mul_of_nonneg_left h1 h0
    linarith
  have hbounds : 0 ≤ k + ((l / 2 : ℕ) : ℤ) ∧ k + ((l / 2 : ℕ) : ℤ) ≤ (l : ℤ) - 1 := by
    rcases Nat.mod_two_eq_zero_or_one l with hp | hp
    · have hoff : offset l = 0.5 := by
        simp [offset, hp]
      have hdiv : (2 : ℝ) * ((l / 2 : ℕ) : ℝ) = (l : ℝ) := by
        exact_mod_cast (by omega : 2 * (l / 2) = l)
      have h05 : (0.5 : ℝ) = 1 / 2 := by norm_num
      rw [hoff, h05] at hbub hblb
      constructor
      · have hR : ((-((l / 2 : ℕ) : ℤ) : ℤ) : ℝ) - 1 < (k : ℝ) := by
          rw [Int.cast_neg, Int.cast_natCast]
          linarith
        have hZ : -((l / 2 : ℕ) : ℤ) - 1 < k := by exact_mod_cast hR
        omega
      · have hR : (k : ℝ) < (((l : ℤ) - 1 - ((l / 2 : ℕ) : ℤ) : ℤ) : ℝ) + 1 := by
          rw [Int.cast_sub, Int.cast_sub, Int.cast_one, Int.cast_natCast, Int.cast_natCast]
          linarith
        have hZ : k < (l : ℤ) - 1 - ((l / 2 : ℕ) : ℤ) + 1 := by exact_mod_cast hR
        omega
    · have hoff : offset l = 0 := by
        simp [offset, hp]
      have hdiv : (2 : ℝ) * ((l / 2 : ℕ) : ℝ) + 1 = (l : ℝ) := by
        exact_mod_cast (by omega : 2 * (l / 2) + 1 = l)
      rw [hoff] at hbub hblb
      constructor
      · have hR : ((-((l / 2 : ℕ) : ℤ) : ℤ) : ℝ) - 1 < (k : ℝ) := by
          rw [Int.cast_neg, Int.cast_natCast]
          linarith
        have hZ : -((l / 2 : ℕ) : ℤ) - 1 < k := by exact_mod_cast hR
        omega
      · have hR : (k : ℝ) < (((l : ℤ) - 1 - ((l / 2 : ℕ) : ℤ) : ℤ) : ℝ) + 1 := by
          rw [Int.cast_sub, Int.cast_sub, Int.cast_one, Int.cast_natCast, Int.cast_natCast]
          linarith
        have hZ : k < (l : ℤ) - 1 - ((l / 2 : ℕ) : ℤ) + 1 := by exact_mod_cast hR
        omega
  obtain ⟨hklb, hkub⟩ := hbounds
  have htn : ((k + ((l / 2 : ℕ) : ℤ)).toNat : ℤ) = k + ((l / 2 : ℕ) : ℤ) :=
    Int.toNat_of_nonneg hklb
  refine ⟨(k + ((l / 2 : ℕ) : ℤ)).toNat, by omega, ?_⟩
  have hh2 : ((l / 2 : ℕ) : ℚ) ≠ 0 := Nat.cast_ne_zero.2 (by omega)
  rw [quantizeDim, hbound]
  rw [show ((some b).bind fun b0 => npdiv ((roundHalfEven b0 : ℤ) : ℚ) ((l / 2 : ℕ) : ℚ)) =
      npdiv ((k : ℤ) : ℚ) ((l / 2 : ℕ) : ℚ) from rfl]
  rw [scale_and_shift_inverse]
  simp only [npdiv, if_neg hh2]
  congr 1
  have hd : (((k + ((l / 2 : ℕ) : ℤ)).toNat : ℕ) : ℚ) = (k : ℚ) + ((l / 2 : ℕ) : ℚ) := by
    rw [← Int.cast_natCast (R := ℚ), htn, Int.cast_add, Int.cast_natCast]
  rw [hd]
  ring

/-- The shape of a quantized component: a digit `d` in `[0, L)` rendered as
`(d - half_width) / half_width`, in a dimension with at least two levels. -/
def IsDigitCode (l : ℕ) (c : Option ℚ) : Prop :=
  2 ≤ l ∧ ∃ d : ℕ, d < l ∧ c = scale_and_shift_inverse l ((d : ℕ) : ℚ)

theorem quantize_components {eps : ℝ} (he0 : 0 ≤ eps) (he1 : eps < 1) :
    ∀ (levels : List ℕ) (z : List ℝ), (∀ l ∈ levels, 2 ≤ l) →
      z.length = levels.length →
      List.Forall₂ IsDigitCode levels
        ((levels.zip z).map (fun p => quantizeDim p.1 eps p.2)) := by
  intro levels
  induction levels with
  | nil =>
    intro z _ _
    simp
  | cons l ls ih =>
    intro z h2 hz
    cases z with
    | nil => simp at hz
    | cons z0 zs =>
      simp only [List.zip_cons_cons, List.map_cons]
      refine List.Forall₂.cons ?_ ?_
      · obtain ⟨d, hd, heq⟩ :=
          quantizeDim_spec (h2 l (List.mem_cons_self l ls)) he0 he1 z0
        exact ⟨h2 l (List.mem_cons_self l ls), d, hd, heq⟩
      · exact ih zs (fun a ha => h2 a (List.mem_cons_of_mem l ha)) (by simpa using hz)

/-- Claim C3, amended.  For configurations whose levels are all at least `2`
(a level of `1` yields NaN, see the counterexample), any tolerance in
`[0, 1)` and any real input vector of matching length, every component of
`quantize(z)` is a defined (non-NaN) rational equal to one of the `L`
renormalized levels `(d - L//2) / (L//2)`, `d ∈ [0, L)`, of its dimension,
and lies within `[-1, 1]` — regardless of the magnitude of the inputs. -/
theorem quantize_range_totality (levels : List ℕ) (eps : ℝ) (z : List ℝ)
    (h2 : ∀ l ∈ levels, 2 ≤ l) (he0 : 0 ≤ eps) (he1 : eps < 1)
    (hz : z.length = levels.length) :
    ∃ w, quantize levels eps z = some w ∧
      List.Forall₂ (fun (l : ℕ) (c : Option ℚ) =>
        ∃ d : ℕ, d < l ∧ c = scale_and_shift_inverse l ((d : ℕ) : ℚ) ∧
          ∃ q : ℚ, c = some q ∧ -1 ≤ q ∧ q ≤ 1) levels w := by
  refine ⟨(levels.zip z).map (fun p => quantizeDim p.1 eps p.2), ?_, ?_⟩
  · unfold quantize
    rw [if_pos hz]
  · refine (quantize_components he0 he1 levels z h2 hz).imp ?_
    rintro l c ⟨hl, d, hd, heq⟩
    obtain ⟨q, hq, hq1, hq2⟩ := scale_shift_inverse_mem hl hd
    exact ⟨d, hd, heq, q, heq ▸ hq, hq1, hq2⟩

/-- Claim C3, witness: the amended range totality at the notebook's
`levels = [3, 5, 4]` with the spec's large-magnitude inputs `±1e6`. -/
theorem quantize_range_totality_witness :
    (∀ l ∈ [3, 5, 4], 2 ≤ l) ∧
      ∃ w, quantize [3, 5, 4] (1 / 1000) [1000000, -1000000, 1000000] = some w ∧
        List.Forall₂ (fun (l : ℕ) (c : Option ℚ) =>
          ∃ d : ℕ, d < l ∧ c = scale_and_shift_inverse l ((d : ℕ) : ℚ) ∧
            ∃ q : ℚ, c = some q ∧ -1 ≤ q ∧ q ≤ 1) [3, 5, 4] w :=
  ⟨by decide,
    quantize_range_totality [3, 5, 4] (1 / 1000) [1000000, -1000000, 1000000]
      (by decide) (by norm_num) (by norm_num) (by decide)⟩

/-- Claim C5, counterexample.  With `levels = [1]`, decoding the only index
`0` does not produce the codeword `0`: `half_width = 1 // 2 = 0`, so the
renormalization computes `(0 - 0) / 0`, which is NaN, not `0`. -/
theorem level_one_code_not_zero :
    indexes_to_codes [1] 0 ≠ [some (0 : ℚ)] := by
  norm_num [indexes_to_codes, basisU, cumprod, cumprodFrom, scale_and_shift_inverse, npdiv]
  decide

/-- Claim C6, counterexample.  Construction does not fail on the empty
`levels` list: `FSQ.__init__` contains no validation, and on `levels = []`
it completes and produces a full instance with `basis = [1]`,
`codebook_size = np.prod([]) = 1`, and an implicit codebook holding one
empty codeword. -/
theorem init_accepts_empty_levels :
    (init [] (1 / 1000)).implicit_codebook = [[]] ∧ (init [] (1 / 1000)).basis = [1] := by
  constructor
  · show (List.range (codebook_size_int64 []).toNat).map (indexes_to_codes []) = [[]]
    unfold codebook_size_int64
    decide
  · rfl

/-- Claim C7, counterexample.  `indexes_to_codes` performs no range check:
for `levels = [2]` (`codebook_size = 2`) the out-of-range index `5` is not
rejected but silently decoded to the valid codeword of index `1`. -/
theorem decode_no_range_check :
    indexes_to_codes [2] 5 = [some 0] ∧ indexes_to_codes [2] 5 = indexes_to_codes [2] 1 := by
  norm_num [indexes_to_codes, basisU, cumprod, cumprodFrom, scale_and_shift_inverse, npdiv]

/-- Claim C10, counterexample.  Digit extraction is performed with the
`uint32`-cast basis, so for level products beyond `2 ^ 32` the aliasing
`indexes_to_codes i = indexes_to_codes (i % codebook_size)` fails: with
`levels = [2 ^ 32 + 6, 3]` the cast turns the second basis entry
`2 ^ 32 + 6` into `6`, and the index `i = codebook_size` decodes
differently from `i % codebook_size = 0`. -/
theorem decode_periodicity_fails_uint32 :
    indexes_to_codes [4294967302, 3] 12884901906 ≠
      indexes_to_codes [4294967302, 3] (12884901906 % codebook_size [4294967302, 3]) := by
  norm_num [indexes_to_codes, basisU, cumprod, cumprodFrom, scale_and_shift_inverse, npdiv,
    codebook_size]

/-- Claim C2, amended.  Whenever `half_l ≠ 0` (every level count of at least
`2` with tolerance below `1`), the bounding transform computes the
per-dimension shift as the *tangent* of `offset / half_l` — not the
arctangent — and returns `tanh(z + shift) * half_l - offset`. -/
theorem bound_shift_tan (l : ℕ) (eps z : ℝ) (h : half_l l eps ≠ 0) :
    bound l eps z =
      some (Real.tanh (z + Real.tan (offset l / half_l l eps)) * half_l l eps - offset l) := by
  simp [bound, shift, nprdiv, h]

/-- Claim C2, witness: the amended bound formula at `L = 2`, `eps = 1e-3`,
`z = 0`. -/
theorem bound_shift_tan_witness :
    half_l 2 (1 / 1000) ≠ 0 ∧
      bound 2 (1 / 1000) 0 =
        some (Real.tanh (0 + Real.tan (offset 2 / half_l 2 (1 / 1000))) * half_l 2 (1 / 1000) -
          offset 2) :=
  ⟨by norm_num [half_l], bound_shift_tan 2 (1 / 1000) 0 (by norm_num [half_l])⟩

/-- Claim C2, counterexample.  The shift is not the arctangent of
`offset / half_l`: at `L = 2`, `eps = 1e-3` the argument is
`x = 0.5 / 0.4995 = 1000/999 ∈ (0, π/2)`, where `tan x > x > arctan x`, so
the source's `tan` and the spec's `arctan` differ. -/
theorem shift_not_arctan :
    shift 2 (1 / 1000) ≠ (nprdiv (offset 2) (half_l 2 (1 / 1000))).map Real.arctan := by
  have hhalf : half_l 2 (1 / 1000) = 999 / 2000 := by
    unfold half_l
    norm_num
  have hoff : offset 2 = 0.5 := by simp [offset]
  have hne : half_l 2 (1 / 1000) ≠ 0 := by
    rw [hhalf]
    norm_num
  have hx : offset 2 / half_l 2 (1 / 1000) = 1000 / 999 := by
    rw [hhalf, hoff]
    norm_num
  rw [shift, nprdiv, if_neg hne]
  simp only [Option.map_some', ne_eq, Option.some.injEq]
  rw [hx]
  intro heq
  have hx0 : (0 : ℝ) < 1000 / 999 := by norm_num
  have hxpi : (1000 / 999 : ℝ) < Real.pi / 2 := by
    have h3 := Real.pi_gt_three
    have : (1000 / 999 : ℝ) < 3 / 2 := by norm_num
    linarith
  have h1 : (1000 / 999 : ℝ) < Real.tan (1000 / 999) := Real.lt_tan hx0 hxpi
  have h2 : Real.arctan (1000 / 999) < (1000 / 999 : ℝ) := by
    have hmono := Real.arctan_strictMono h1
    rwa [Real.arctan_tan (by linarith [Real.pi_pos]) hxpi] at hmono
  rw [heq] at h1
  linarith

/-- Claim C8, amended.  `codes_to_indexes` checks the last-axis length (its
leading `assert`) before any arithmetic and fails on any mismatch; but
`quantize` performs no such check — a length-1 input vector is silently
broadcast against the per-dimension constants and quantization succeeds. -/
theorem encode_asserts_quantize_does_not (levels : List ℕ) (eps : ℝ)
    (zhat : List (Option ℚ)) (z0 : ℝ) (hmis : zhat.length ≠ levels.length) :
    codes_to_indexes levels zhat = Except.error () ∧
      (quantize levels eps [z0]).isSome = true := by
  constructor
  · rw [codes_to_indexes, if_neg hmis]
  · unfold quantize
    split_ifs with h
    · rfl
    · cases levels with
      | nil => rfl
      | cons a as =>
        cases as with
        | nil => rfl
        | cons b bs => rfl

/-- Claim C8, witness: the amended statement at `levels = [2, 3]` with the
empty codeword (length `0 ≠ 2`) and the scalar-like input `[0]`. -/
theorem encode_asserts_quantize_does_not_witness :
    ([] : List (Option ℚ)).length ≠ ([2, 3] : List ℕ).length ∧
      codes_to_indexes [2, 3] [] = Except.error () ∧
      (quantize [2, 3] (1 / 1000) [(0 : ℝ)]).isSome = true :=
  ⟨by decide, encode_asserts_quantize_does_not [2, 3] (1 / 1000) [] 0 (by decide)⟩

/-- Claim C8, counterexample.  `quantize` raises no dimension-mismatch
error: on `levels = [2, 3]` (`num_dimensions = 2`) the length-1 input `[0]`
is silently broadcast and quantization returns a result instead of failing
before any arithmetic. -/
theorem quantize_no_dimension_check :
    (quantize [2, 3] (1 / 1000) [(0 : ℝ)]).isSome = true := by
  unfold quantize
  norm_num

/-- Claim C3, counterexample.  `levels = [1]` is a valid configuration in
the claim's sense, and the finite input `1e6` quantizes to a NaN component
(`bound` computes `shift = tan(0/0)` and the renormalization divides by
`half_width = 0`), violating "never NaN" and membership in the discrete
level set. -/
theorem quantize_nan_at_level_one :
    quantize [1] (1 / 1000) [(1000000 : ℝ)] = some [none] := by
  simp [quantize, quantizeDim_one]

end FSQ
